import Mathlib

/-!
Verification of the virtual-document synthesis and position-mapping engine of an
editor language server for a hybrid templating language.

Texts are modelled as `List Char`.  JavaScript string primitives used by the
source (`substring`, indexing that yields `undefined` out of bounds) are
embedded with explicit clamping / `Option` so that every definition mirrors the
observable behaviour of the corresponding source function.
-/

/-- Embeds JavaScript `s.substring(a, b)` for `a ≤ b`: the characters of `s` at
positions `[a, b)`, clamped to the length of `s`.  (All call sites below pass
`a ≤ b`, so the argument-swapping branch of the JavaScript primitive is never
exercised.) -/
def jsSubstring (s : List Char) (a b : Nat) : List Char :=
  (s.drop a).take (b - a)

/-- One decoded sourcemap segment of the generated document after the
line/column pairs have been converted to absolute offsets by the text-document
collaborator: the generated offset, and the original-document offset when the
segment carries source information (`segment[2]`/`segment[3]` present). -/
structure V3Segment where
  genOffset : Nat
  sourceOffset : Option Nat
  deriving Repr, DecidableEq

/-- One entry of the `mappings` array built by `getVirtualFileTSX`.  The `data`
object of the source is modelled by its only relevant key: `formattingEdits`,
`none` while the key is absent and `some b` once assigned. -/
structure OffsetMapping where
  sourceRange : Nat × Nat
  generatedRange : Nat × Nat
  formattingEdits : Option Bool
  deriving Repr, DecidableEq

/-- The `current` record of the mapping-reconstruction loop: the pair of
offsets opened by the previous segment that carried source information. -/
structure CurrentState where
  genOffset : Nat
  sourceOffset : Nat
  deriving Repr, DecidableEq

/-- Embeds the character scan of `getVirtualFileTSX` that runs when the source
and generated spans disagree:
`length = 0; for (i = 0; i < bound; i++) { if (sourceText[i] === genText[i]) length = i + 1; else break; }`.
Out-of-bounds JavaScript indexing yields `undefined`, and
`undefined === undefined` holds, which `List.get?` mirrors exactly
(`none = none`). -/
def matchScan (sourceText genText : List Char) (bound i len : Nat) : Nat :=
  if i < bound then
    if sourceText.get? i = genText.get? i then
      matchScan sourceText genText bound (i + 1) (i + 1)
    else len
  else len
termination_by bound - i

/-- The matched length the loop body computes for the span between
`current.genOffset` and the next segment's generated offset: the full span
when the original and generated texts agree, otherwise the result of the
character scan. -/
def segmentLength (input code : List Char) (cur : CurrentState) (genOffset : Nat) : Nat :=
  let n := genOffset - cur.genOffset
  let sourceText := jsSubstring input cur.sourceOffset (cur.sourceOffset + n)
  let genText := jsSubstring code cur.genOffset (cur.genOffset + n)
  if sourceText = genText then n else matchScan sourceText genText n 0 0

/-- Embeds the `if (length > 0)` push of `getVirtualFileTSX`: extend the last
mapping in place when it ends exactly where the new span starts (in both
coordinates), otherwise append a fresh mapping with empty `data`. -/
def pushMapping (ms : List OffsetMapping) (cur : CurrentState) (len : Nat) :
    List OffsetMapping :=
  match ms.getLast? with
  | some lastMapping =>
    if lastMapping.generatedRange.2 = cur.genOffset ∧
        lastMapping.sourceRange.2 = cur.sourceOffset then
      ms.dropLast ++ [{ lastMapping with
        sourceRange := (lastMapping.sourceRange.1, cur.sourceOffset + len),
        generatedRange := (lastMapping.generatedRange.1, cur.genOffset + len) }]
    else
      ms ++ [⟨(cur.sourceOffset, cur.sourceOffset + len),
              (cur.genOffset, cur.genOffset + len), none⟩]
  | none =>
      ms ++ [⟨(cur.sourceOffset, cur.sourceOffset + len),
              (cur.genOffset, cur.genOffset + len), none⟩]

/-- One iteration of the segment loop of `getVirtualFileTSX`: close the open
`current` span (recording a mapping when some positive length matched), then
re-open `current` when the segment carries source information. -/
def mappingStep (input code : List Char)
    (st : List OffsetMapping × Option CurrentState) (seg : V3Segment) :
    List OffsetMapping × Option CurrentState :=
  let ms :=
    match st.2 with
    | none => st.1
    | some cur =>
      let len := segmentLength input code cur seg.genOffset
      if 0 < len then pushMapping st.1 cur len else st.1
  (ms, seg.sourceOffset.map fun so => CurrentState.mk seg.genOffset so)

/-- The mapping list `getVirtualFileTSX` reconstructs from the decoded
delta-encoded table, before the whole-document entry is appended.  `segs` are
the decoded segments flattened in generated-line order. -/
def buildMappings (input code : List Char) (segs : List V3Segment) :
    List OffsetMapping :=
  (segs.foldl (mappingStep input code) ([], none)).1

/-- Embeds `mapping.data.formattingEdits = false` applied by the final
`forEach` of `getVirtualFileTSX`. -/
def setFormattingEdits (m : OffsetMapping) : OffsetMapping :=
  { m with formattingEdits := some false }

/-- The complete `mappings` array returned by `getVirtualFileTSX`:
the reconstructed table, then — only when the generated code parses to at
least one statement (`ast.statements[0]`) — one entry tying the whole original
document `[0, input.length]` to `[start of first statement, code.length]`,
and finally `formattingEdits = false` on every entry.
`firstStatementStart` models the external TypeScript parse:
`none` when `ast.statements` is empty, `some s` when the first statement
starts at offset `s`. -/
def getVirtualFileTSXMappings (input code : List Char) (segs : List V3Segment)
    (firstStatementStart : Option Nat) : List OffsetMapping :=
  let ms := buildMappings input code segs
  let ms :=
    match firstStatementStart with
    | some s => ms ++ [OffsetMapping.mk (0, input.length) (s, code.length) none]
    | none => ms
  ms.map setFormattingEdits

/-- One structured diagnostic of the external markup-to-code compiler
(code, severity, location as line/column/length, message). -/
structure CompilerDiagnostic where
  code : Nat
  severity : Nat
  line : Nat
  column : Nat
  length : Nat
  text : String
  deriving Repr, DecidableEq

/-- The result of the external markup-to-code compiler, after its
delta-encoded `map.mappings` string has been decoded and converted to absolute
offsets (`mappingSegments`). -/
structure TSXResult where
  code : List Char
  mappingSegments : List V3Segment
  diagnostics : List CompilerDiagnostic
  deriving Repr, DecidableEq

/-- The message of the synthetic diagnostic produced when the external
compiler throws.  (The source message continues with instructions for filing
an issue against the language-tools repository; the sentence is abbreviated
here and the abbreviation is never load-bearing.) -/
def internalCompilerErrorText : String :=
  "The Astro compiler encountered an unknown error while parsing this file."

/-- The fallback result `safeConvertToTSX` substitutes when `convertToTSX`
throws: empty code, an empty sourcemap (whose `mappings: ''` string decodes to
no segments), and exactly one synthetic diagnostic with code 1000 and
severity 1 (error) spanning the whole content. -/
def fallbackTSX (content : List Char) : TSXResult :=
  { code := []
    mappingSegments := []
    diagnostics := [⟨1000, 1, 1, 1, content.length, internalCompilerErrorText⟩] }

/-- Embeds `safeConvertToTSX`.  The external call `convertToTSX(content, …)`
either returns a result or throws; its outcome is passed in as
`compilerResult` (`none` models the throwing case, caught by the
`try`/`catch`). -/
def safeConvertToTSX (content : List Char) (compilerResult : Option TSXResult) :
    TSXResult :=
  match compilerResult with
  | some tsx => tsx
  | none => fallbackTSX content

/-- The parts of the `astro2tsx` return value the claims are about: the
virtual file's mapping list and generated code, and the compiler
diagnostics.  (`patchTSX` only rewrites generated identifier names and is the
identity on the empty fallback code; the identifier rewriting itself is not
needed by any claim.) -/
structure Astro2TSXResult where
  mappings : List OffsetMapping
  code : List Char
  diagnostics : List CompilerDiagnostic
  deriving Repr, DecidableEq

/-- Embeds `astro2tsx`: run the guarded compiler, then build the virtual
file's mappings via `getVirtualFileTSX`, and pass the compiler diagnostics
through.  `firstStatementStart` models the external TypeScript parse of the
generated code as in `getVirtualFileTSXMappings`. -/
def astro2tsx (input : List Char) (compilerResult : Option TSXResult)
    (firstStatementStart : Option Nat) : Astro2TSXResult :=
  let tsx := safeConvertToTSX input compilerResult
  { mappings := getVirtualFileTSXMappings input tsx.code tsx.mappingSegments firstStatementStart
    code := tsx.code
    diagnostics := tsx.diagnostics }

/-- Modelled from the spec: translation of an original offset through one
mapping segment by linear interpolation within the segment (the translation
functions `mapToGenerated`/`mapToOriginal` live in the external source-map
dependency, not in this repository; the spec defines them as linear
interpolation between `sourceRange` and `generatedRange`). -/
def mapToGenerated (m : OffsetMapping) (o : Nat) : Nat :=
  m.generatedRange.1 + (o - m.sourceRange.1)

/-- Modelled from the spec: translation of a generated offset back through one
mapping segment by linear interpolation, inverse direction of
`mapToGenerated`. -/
def mapToOriginal (m : OffsetMapping) (g : Nat) : Nat :=
  m.sourceRange.1 + (g - m.generatedRange.1)

/-- The length of the longest common prefix of two character lists. -/
def lcpLength : List Char → List Char → Nat
  | a :: s, b :: t => if a = b then lcpLength s t + 1 else 0
  | _, _ => 0

/-- The per-entry invariant of the reconstructed mapping table: ordered range
endpoints, equal source/generated lengths, and character-for-character equal
text over the two ranges. -/
def GoodMapping (input code : List Char) (m : OffsetMapping) : Prop :=
  m.sourceRange.1 ≤ m.sourceRange.2 ∧
  m.generatedRange.1 ≤ m.generatedRange.2 ∧
  m.sourceRange.2 - m.sourceRange.1 = m.generatedRange.2 - m.generatedRange.1 ∧
  jsSubstring input m.sourceRange.1 m.sourceRange.2 =
    jsSubstring code m.generatedRange.1 m.generatedRange.2

/-- Disjointness in the generated direction: the first entry's generated span
ends no later than the second one starts. -/
def DisjointGen (a b : OffsetMapping) : Prop :=
  a.generatedRange.2 ≤ b.generatedRange.1

/-- Modelled from the spec: the shared numeric helper
`clamp(num, min, max) = Math.max(min, Math.min(max, num))` used by the
position utilities (its defining module is not under src/; the spec describes
it as restricting a value into a closed interval). -/
def clamp (num minVal maxVal : Nat) : Nat :=
  max minVal (min maxVal num)

/-- A line/character protocol position (`Position.create(line, character)`). -/
structure TextPosition where
  line : Nat
  character : Nat
  deriving Repr, DecidableEq

/-- Embeds the scanning loop of `getLineOffsets`: walks the text tracking
`isLineStart`, records the offset of every line start, and skips the `\n` of
a `\r\n` pair.  Returns the recorded offsets together with the final
`isLineStart` flag. -/
def lineOffsetsAux : List Char → Nat → Bool → List Nat × Bool
  | [], _, isLineStart => ([], isLineStart)
  | '\r' :: '\n' :: rest, i, isLineStart =>
    let r := lineOffsetsAux rest (i + 2) true
    ((if isLineStart then [i] else []) ++ r.1, r.2)
  | c :: rest, i, isLineStart =>
    let r := lineOffsetsAux rest (i + 1) (c == '\r' || c == '\n')
    ((if isLineStart then [i] else []) ++ r.1, r.2)

/-- Embeds `getLineOffsets`: the offsets of all line starts of the text, plus
the end-of-text offset when the text ends in a line break. -/
def getLineOffsets (text : List Char) : List Nat :=
  let r := lineOffsetsAux text 0 true
  if r.2 ∧ 0 < text.length then r.1 ++ [text.length] else r.1

/-- Embeds the binary search of `positionAt`.  `high1` encodes the JavaScript
`high` as `high + 1` so that the transient value `high = -1` stays inside
`Nat` (`high1 = 0`); the loop guard `low <= high` becomes `low < high1` and
`mid = floor((low + high) / 2)` becomes `(low + high1 - 1) / 2`.  A probe
outside the table (`lineOffsets[mid]` being JavaScript `undefined`) takes the
`high = mid - 1` branch, exactly as `undefined === offset` and
`offset > undefined` are both false.  On exit the source computes
`line = low - 1`; the exit with `low = 0` would index `lineOffsets[-1]`, but
it is unreachable for every input (proved below), and `Nat` subtraction
parks it at line 0. -/
def posSearch (lineOffsets : List Nat) (offset : Nat) (low high1 : Nat) : TextPosition :=
  if low < high1 then
    let mid := (low + high1 - 1) / 2
    match lineOffsets.get? mid with
    | some lineOffset =>
      if lineOffset = offset then ⟨mid, 0⟩
      else if offset > lineOffset then posSearch lineOffsets offset (mid + 1) high1
      else posSearch lineOffsets offset low mid
    | none => posSearch lineOffsets offset low mid
  else
    ⟨low - 1, offset - lineOffsets.getD (low - 1) 0⟩
termination_by high1 - low
decreasing_by
  all_goals omega

/-- Embeds `positionAt(offset, text, lineOffsets)`: clamp the offset into
`[0, text.length]` (only the upper clamp can act once offsets are `Nat`),
answer line 0 directly when the line-offset table is empty (`high === 0`),
otherwise run the binary search with `low = 0` and
`high = lineOffsets.length`. -/
def positionAt (offset : Nat) (text : List Char) (lineOffsets : List Nat) : TextPosition :=
  let offset := clamp offset 0 text.length
  if lineOffsets.length = 0 then ⟨0, offset⟩
  else posSearch lineOffsets offset 0 (lineOffsets.length + 1)

/-- `positionAt` with the default `lineOffsets = getLineOffsets(text)`. -/
def positionAtText (offset : Nat) (text : List Char) : TextPosition :=
  positionAt offset text (getLineOffsets text)

/-- Embeds `offsetAt(position, text, lineOffsets)`.  (The `position.line < 0`
guard of the source cannot fire with `Nat` coordinates; protocol positions
are non-negative.) -/
def offsetAt (pos : TextPosition) (text : List Char) (lineOffsets : List Nat) : Nat :=
  if pos.line ≥ lineOffsets.length then text.length
  else
    let lineOffset := lineOffsets.getD pos.line 0
    let nextLineOffset :=
      if pos.line + 1 < lineOffsets.length then lineOffsets.getD (pos.line + 1) 0
      else text.length
    clamp nextLineOffset lineOffset (lineOffset + pos.character)

/-- `offsetAt` with the default `lineOffsets = getLineOffsets(text)`. -/
def offsetAtText (pos : TextPosition) (text : List Char) : Nat :=
  offsetAt pos text (getLineOffsets text)

/-- One markup node as produced by the external HTML parser adapter: tag name
(`none` for text nodes), raw attribute map (`none` values for valueless
attributes), whole-node start/end offsets, end of the opening tag and start
of the closing tag when present, closed flag, and children. -/
inductive MarkupNode where
  | mk (tag : Option String) (attributes : List (String × Option (List Char)))
      (start nodeEnd : Nat) (startTagEnd endTagStart : Option Nat)
      (closed : Bool) (children : List MarkupNode)

def MarkupNode.tag : MarkupNode → Option String
  | .mk t _ _ _ _ _ _ _ => t

def MarkupNode.attributes : MarkupNode → List (String × Option (List Char))
  | .mk _ a _ _ _ _ _ _ => a

def MarkupNode.start : MarkupNode → Nat
  | .mk _ _ s _ _ _ _ _ => s

def MarkupNode.nodeEnd : MarkupNode → Nat
  | .mk _ _ _ e _ _ _ _ => e

def MarkupNode.startTagEnd : MarkupNode → Option Nat
  | .mk _ _ _ _ ste _ _ _ => ste

def MarkupNode.endTagStart : MarkupNode → Option Nat
  | .mk _ _ _ _ _ ets _ _ => ets

def MarkupNode.closed : MarkupNode → Bool
  | .mk _ _ _ _ _ _ c _ => c

def MarkupNode.children : MarkupNode → List MarkupNode
  | .mk _ _ _ _ _ _ _ cs => cs

mutual

/-- Embeds the generator `walk(node)`: yields all descendants (children
first, recursively) and then the node itself. -/
def walk : MarkupNode → List MarkupNode
  | .mk t a s e ste ets c children =>
    walkAll children ++ [MarkupNode.mk t a s e ste ets c children]

def walkAll : List MarkupNode → List MarkupNode
  | [] => []
  | n :: rest => walk n ++ walkAll rest

end

/-- The record `extractTags` builds for one matched tag (`end` of the source
is named `tagEnd`; Lean reserves `end`). -/
structure TagInformation where
  content : List Char
  attributes : List (String × List Char)
  start : Nat
  tagEnd : Nat
  startPos : TextPosition
  endPos : TextPosition
  container : Nat × Nat
  closed : Bool
  deriving Repr, DecidableEq

/-- The single-quote character (written via its code point to keep the
development free of quote-escape ambiguity). -/
def singleQuoteChar : Char := Char.ofNat 39

/-- Embeds `removeOuterQuotes`: strip one pair of matching outer double or
single quotes (`attrValue.slice(1, attrValue.length - 1)`). -/
def removeOuterQuotes (attrValue : List Char) : List Char :=
  if (attrValue.head? = some '"' ∧ attrValue.getLast? = some '"') ∨
      (attrValue.head? = some singleQuoteChar ∧ attrValue.getLast? = some singleQuoteChar) then
    (attrValue.drop 1).take (attrValue.length - 2)
  else attrValue

/-- Embeds `parseAttributes`: a `null` attribute value becomes the attribute
name itself, other values lose their outer quotes.  (A missing attribute
record is modelled as the empty list.) -/
def parseAttributes (rawAttrs : List (String × Option (List Char))) :
    List (String × List Char) :=
  rawAttrs.map fun na =>
    (na.1,
      match na.2 with
      | none => na.1.toList
      | some v => removeOuterQuotes v)

/-- Embeds `transformToTagInfo` of `extractTags`: content spans from the end
of the opening tag to the start of the closing tag (falling back to the node
bounds), with positions computed over the whole text. -/
def transformToTagInfo (text : List Char) (matchedNode : MarkupNode) : TagInformation :=
  let start := matchedNode.startTagEnd.getD matchedNode.start
  let tagEnd := matchedNode.endTagStart.getD matchedNode.nodeEnd
  { content := jsSubstring text start tagEnd
    attributes := parseAttributes matchedNode.attributes
    start := start
    tagEnd := tagEnd
    startPos := positionAtText start text
    endPos := positionAtText tagEnd text
    container := (matchedNode.start, matchedNode.nodeEnd)
    closed := matchedNode.closed }

/-- Embeds `extractTags(text, tag, html)`: filter the root nodes by tag; only
when the tag is `style`, no root node matched, and there is at least one root
node, deep-walk the FIRST root node collecting nested style nodes; finally
build the tag records. -/
def extractTags (text : List Char) (tag : String) (rootNodes : List MarkupNode) :
    List TagInformation :=
  let matchedNodes := rootNodes.filter fun n => n.tag = some tag
  let matchedNodes :=
    if tag = "style" ∧ matchedNodes.isEmpty ∧ ¬rootNodes.isEmpty then
      matchedNodes ++
        (walk (rootNodes.headD (MarkupNode.mk none [] 0 0 none none false []))).filter
          fun n => n.tag = some "style"
    else matchedNodes
  matchedNodes.map (transformToTagInfo text)

/-- The two-style document of the extraction test:
`<style>h1{color: blue;}</style><div><style>h2{color: red;}</style></div>`. -/
def twoStyleDocument : List Char :=
  "<style>h1\x7bcolor: blue;\x7d</style><div><style>h2\x7bcolor: red;\x7d</style></div>".toList

/-- The top-level style node of `twoStyleDocument` as parsed by the external
HTML parser: `<style>` ends at 7, `</style>` starts at 23, node spans
[0, 31). -/
def twoStyleTopNode : MarkupNode :=
  MarkupNode.mk (some "style") [] 0 31 (some 7) (some 23) true []

/-- The style node nested in the `div` of `twoStyleDocument`: `<style>` ends
at 43, `</style>` starts at 58, node spans [36, 66). -/
def twoStyleNestedNode : MarkupNode :=
  MarkupNode.mk (some "style") [] 36 66 (some 43) (some 58) true []

/-- The `div` container of `twoStyleDocument`, spanning [31, 72), wrapping
the nested style node. -/
def twoStyleDivNode : MarkupNode :=
  MarkupNode.mk (some "div") [] 31 72 (some 36) (some 66) true [twoStyleNestedNode]

/-- The root node list of `twoStyleDocument`. -/
def twoStyleRoots : List MarkupNode := [twoStyleTopNode, twoStyleDivNode]

/-- The three structural states of the frontmatter scan (status strings
`doesnt-exist` / `open` / `closed` in the source's `FrontmatterStatus`).
`closed` records the offset of the start of the opening delimiter and the
offset just past the end of the closing delimiter. -/
inductive FrontmatterStatus where
  | doesntExist
  | opened (openStart : Nat)
  | closed (openStart closeEnd : Nat)
  deriving Repr, DecidableEq

/-- Modelled from the spec: find the first occurrence of the literal
triple-dash delimiter at or after index `i` (the frontmatter scanner of
`parseAstro.ts` is not under src/; the spec defines the scan as searching for
the first occurrences of the literal triple-dash delimiter). -/
def findTripleDash : List Char → Nat → Option Nat
  | [], _ => none
  | c :: rest, i =>
    if c = '-' ∧ rest.head? = some '-' ∧ rest.tail.head? = some '-' then some i
    else findTripleDash rest (i + 1)

/-- Modelled from the spec: `scan(text)` — no delimiter means no frontmatter,
one delimiter means an open (unclosed) frontmatter at that offset, two
delimiters mean a closed frontmatter whose close delimiter ends three
characters past its start (the search for the closing delimiter resumes after
the opening one). -/
def scanFrontmatter (text : List Char) : FrontmatterStatus :=
  match findTripleDash text 0 with
  | none => FrontmatterStatus.doesntExist
  | some i =>
    match findTripleDash (text.drop (i + 3)) (i + 3) with
    | none => FrontmatterStatus.opened i
    | some j => FrontmatterStatus.closed i (j + 3)

/-- One extracted script block as the synthetic-source generator sees it:
whether it carries the inline attribute, and the names its content declares
at module scope. -/
structure ScriptBlock where
  isInline : Bool
  declaredNames : List String
  deriving Repr, DecidableEq

/-- Modelled from the spec: satellite synthetic sources (steps 5–6 of
`generate`; `parseJS.ts`'s `extractScriptTags` is not under src/) — every
script block without the inline attribute becomes its own isolated module,
inline blocks produce no satellite. -/
def satelliteModules (blocks : List ScriptBlock) : List (List String) :=
  (blocks.filter fun b => !b.isInline).map fun b => b.declaredNames

/-- Modelled from the spec: the module scope of the primary synthetic source —
the frontmatter declarations together with the contents of all inline blocks,
which by design share one scope. -/
def primaryScopeNames (frontmatterNames : List String) (blocks : List ScriptBlock) :
    List String :=
  frontmatterNames ++ (blocks.filter fun b => b.isInline).flatMap fun b => b.declaredNames

/-- Modelled from the spec: the external type checker's name-collision
diagnostics for one module scope — one diagnostic per name declared more than
once in the scope. -/
def collisionDiagnostics (moduleNames : List String) : List String :=
  (moduleNames.filter fun n => 1 < moduleNames.count n).dedup

/-- Modelled from the spec: all name-collision diagnostics the checker
reports for one generated document — those of the primary synthetic source
plus those of every satellite module, each checked in isolation. -/
def generateCollisionDiagnostics (frontmatterNames : List String)
    (blocks : List ScriptBlock) : List String :=
  collisionDiagnostics (primaryScopeNames frontmatterNames blocks) ++
    (satelliteModules blocks).flatMap collisionDiagnostics

theorem lcpLength_agree (s t : List Char) :
    ∀ j, j < lcpLength s t → s.get? j = t.get? j := by
  induction s generalizing t with
  | nil => intro j hj; simp [lcpLength] at hj
  | cons a s ih =>
    intro j hj
    cases t with
    | nil => simp [lcpLength] at hj
    | cons b t =>
      simp only [lcpLength] at hj
      by_cases hab : a = b
      · subst hab
        rw [if_pos rfl] at hj
        cases j with
        | zero => simp
        | succ j => simpa using ih t j (by omega)
      · rw [if_neg hab] at hj; omega

theorem lcpLength_stop (s t : List Char) (h : s ≠ t) :
    s.get? (lcpLength s t) ≠ t.get? (lcpLength s t) := by
  induction s generalizing t with
  | nil =>
    cases t with
    | nil => exact absurd rfl h
    | cons b t => simp [lcpLength]
  | cons a s ih =>
    cases t with
    | nil => simp [lcpLength]
    | cons b t =>
      by_cases hab : a = b
      · subst hab
        have hst : s ≠ t := fun hst => h (by rw [hst])
        simpa [lcpLength] using ih t hst
      · simp only [lcpLength, if_neg hab, List.get?]
        simpa using hab

theorem matchScan_le (s t : List Char) (bound : Nat) :
    ∀ i len, len ≤ bound → i ≤ bound → matchScan s t bound i len ≤ bound := by
  intro i len
  induction i, len using matchScan.induct s t bound with
  | case1 i len hlt heq ih =>
    intro _ _
    rw [matchScan, if_pos hlt, if_pos heq]
    exact ih (by omega) (by omega)
  | case2 i len hlt hne =>
    intro h1 _
    rw [matchScan, if_pos hlt, if_neg hne]
    exact h1
  | case3 i len hge =>
    intro h1 _
    rw [matchScan, if_neg hge]
    exact h1

theorem matchScan_agree (s t : List Char) (bound : Nat) :
    ∀ i len, len = i → (∀ j, j < i → s.get? j = t.get? j) →
      ∀ j, j < matchScan s t bound i len → s.get? j = t.get? j := by
  intro i len
  induction i, len using matchScan.induct s t bound with
  | case1 i len hlt heq ih =>
    intro hlen hagree j hj
    rw [matchScan, if_pos hlt, if_pos heq] at hj
    refine ih rfl ?_ j hj
    intro k hk
    rcases Nat.lt_or_ge k i with hki | hki
    · exact hagree k hki
    · have : k = i := by omega
      subst this; exact heq
  | case2 i len hlt hne =>
    intro hlen hagree j hj
    rw [matchScan, if_pos hlt, if_neg hne] at hj
    exact hagree j (by omega)
  | case3 i len hge =>
    intro hlen hagree j hj
    rw [matchScan, if_neg hge] at hj
    exact hagree j (by omega)

theorem matchScan_stop (s t : List Char) (bound k : Nat)
    (hk : k < bound) (hagree : ∀ j, j < k → s.get? j = t.get? j)
    (hne : s.get? k ≠ t.get? k) :
    ∀ i len, len = i → i ≤ k → matchScan s t bound i len = k := by
  intro i len
  induction i, len using matchScan.induct s t bound with
  | case1 i len hlt heq ih =>
    intro hlen hik
    rw [matchScan, if_pos hlt, if_pos heq]
    rcases Nat.lt_or_ge i k with hik' | hik'
    · exact ih rfl (by omega)
    · have : i = k := by omega
      subst this; exact absurd heq hne
  | case2 i len hlt hne' =>
    intro hlen hik
    rw [matchScan, if_pos hlt, if_neg hne']
    rcases Nat.lt_or_ge i k with hik' | hik'
    · exact absurd (hagree i hik') hne'
    · omega
  | case3 i len hge =>
    intro hlen hik
    exact absurd (by omega : i < bound) hge

theorem lcpLength_le_left (s t : List Char) : lcpLength s t ≤ s.length := by
  induction s generalizing t with
  | nil => simp [lcpLength]
  | cons a s ih =>
    cases t with
    | nil => simp [lcpLength]
    | cons b t =>
      simp only [lcpLength]
      by_cases hab : a = b
      · rw [if_pos hab]; simpa using ih t
      · rw [if_neg hab]; simp

/-- When the two spans diverge, the character scan of `getVirtualFileTSX`
computes exactly the length of their longest common prefix (provided the scan
bound covers both spans, as it does at the call site). -/
theorem matchScan_eq_lcpLength (s t : List Char) (bound : Nat)
    (hs : s.length ≤ bound) (ht : t.length ≤ bound) (hne : s ≠ t) :
    matchScan s t bound 0 0 = lcpLength s t := by
  have hstop := lcpLength_stop s t hne
  have hkbound : lcpLength s t < bound := by
    rcases Nat.lt_or_ge (lcpLength s t) s.length with h | h
    · omega
    · rcases Nat.lt_or_ge (lcpLength s t) t.length with h' | h'
      · omega
      · exfalso
        apply hstop
        rw [List.get?_eq_none.mpr h, List.get?_eq_none.mpr h']
  exact matchScan_stop s t bound (lcpLength s t) hkbound (lcpLength_agree s t) hstop 0 0 rfl
    (Nat.zero_le _)

theorem take_eq_of_agree (s t : List Char) (r : Nat)
    (h : ∀ j, j < r → s.get? j = t.get? j) : s.take r = t.take r := by
  apply List.ext_get?
  intro j
  rcases Nat.lt_or_ge j r with hj | hj
  · rw [List.get?_take hj, List.get?_take hj, h j hj]
  · rw [List.get?_eq_none.mpr, List.get?_eq_none.mpr]
    · calc (t.take r).length ≤ r := by simpa using Nat.min_le_left _ _
        _ ≤ j := hj
    · calc (s.take r).length ≤ r := by simpa using Nat.min_le_left _ _
        _ ≤ j := hj

theorem jsSubstring_length_le (s : List Char) (a b : Nat) :
    (jsSubstring s a b).length ≤ b - a := by
  simp only [jsSubstring, List.length_take]
  exact Nat.min_le_left _ _

theorem jsSubstring_take (s : List Char) (a k n : Nat) (hk : k ≤ n) :
    jsSubstring s a (a + k) = (jsSubstring s a (a + n)).take k := by
  simp only [jsSubstring, Nat.add_sub_cancel_left, List.take_take]
  rw [Nat.min_eq_left hk]

theorem jsSubstring_append (s : List Char) (a b c : Nat) (hab : a ≤ b) (hbc : b ≤ c) :
    jsSubstring s a b ++ jsSubstring s b c = jsSubstring s a c := by
  simp only [jsSubstring]
  have hdrop : s.drop b = (s.drop a).drop (b - a) := by
    rw [List.drop_drop]
    congr 1
    omega
  rw [hdrop]
  have hsum : c - a = (b - a) + (c - b) := by omega
  rw [hsum, List.take_add]

theorem segmentLength_le (input code : List Char) (cur : CurrentState) (g : Nat) :
    segmentLength input code cur g ≤ g - cur.genOffset := by
  simp only [segmentLength]
  split
  · exact Nat.le_refl _
  · exact matchScan_le _ _ _ 0 0 (Nat.zero_le _) (Nat.zero_le _)

/-- The span the loop body records always covers character-for-character equal
original and generated text. -/
theorem segmentLength_textEq (input code : List Char) (cur : CurrentState) (g : Nat) :
    jsSubstring input cur.sourceOffset (cur.sourceOffset + segmentLength input code cur g) =
      jsSubstring code cur.genOffset (cur.genOffset + segmentLength input code cur g) := by
  by_cases hcase :
      jsSubstring input cur.sourceOffset (cur.sourceOffset + (g - cur.genOffset)) =
        jsSubstring code cur.genOffset (cur.genOffset + (g - cur.genOffset))
  · have hseg : segmentLength input code cur g = g - cur.genOffset := by
      simp only [segmentLength]
      rw [if_pos hcase]
    rw [hseg]
    exact hcase
  · have hseg : segmentLength input code cur g =
        matchScan (jsSubstring input cur.sourceOffset (cur.sourceOffset + (g - cur.genOffset)))
          (jsSubstring code cur.genOffset (cur.genOffset + (g - cur.genOffset)))
          (g - cur.genOffset) 0 0 := by
      simp only [segmentLength]
      rw [if_neg hcase]
    have hle := segmentLength_le input code cur g
    rw [hseg] at hle ⊢
    rw [jsSubstring_take input cur.sourceOffset _ (g - cur.genOffset) hle,
        jsSubstring_take code cur.genOffset _ (g - cur.genOffset) hle]
    apply take_eq_of_agree
    intro j hj
    exact matchScan_agree _ _ _ 0 0 rfl (by omega) j hj

theorem goodMapping_pushMapping (input code : List Char) (ms : List OffsetMapping)
    (cur : CurrentState) (len : Nat)
    (hms : ∀ m ∈ ms, GoodMapping input code m)
    (htext : jsSubstring input cur.sourceOffset (cur.sourceOffset + len) =
      jsSubstring code cur.genOffset (cur.genOffset + len)) :
    ∀ m ∈ pushMapping ms cur len, GoodMapping input code m := by
  intro m hm
  have hnew : GoodMapping input code
      ⟨(cur.sourceOffset, cur.sourceOffset + len),
       (cur.genOffset, cur.genOffset + len), none⟩ := by
    refine ⟨Nat.le_add_right _ _, Nat.le_add_right _ _, by simp, htext⟩
  unfold pushMapping at hm
  rcases hlast : ms.getLast? with _ | lastMapping
  · rw [hlast] at hm
    dsimp only at hm
    rcases List.mem_append.mp hm with h | h
    · exact hms m h
    · rw [List.mem_singleton.mp h]
      exact hnew
  · rw [hlast] at hm
    dsimp only at hm
    have hdecomp : ms.dropLast ++ [lastMapping] = ms :=
      List.dropLast_append_getLast? lastMapping (Option.mem_def.mpr hlast)
    have hlastmem : lastMapping ∈ ms := by
      rw [← hdecomp]
      exact List.mem_append_right _ (List.mem_singleton.mpr rfl)
    have hlastgood := hms lastMapping hlastmem
    by_cases hguard : lastMapping.generatedRange.2 = cur.genOffset ∧
        lastMapping.sourceRange.2 = cur.sourceOffset
    · rw [if_pos hguard] at hm
      rcases List.mem_append.mp hm with h | h
      · exact hms m (List.dropLast_subset ms h)
      · rw [List.mem_singleton.mp h]
        obtain ⟨hs, hg, hlen, htxt⟩ := hlastgood
        obtain ⟨hguard1, hguard2⟩ := hguard
        refine ⟨by simp only; omega, by simp only; omega, by simp only; omega, ?_⟩
        simp only
        rw [← jsSubstring_append input lastMapping.sourceRange.1 cur.sourceOffset
              (cur.sourceOffset + len) (by omega) (by omega),
            ← jsSubstring_append code lastMapping.generatedRange.1 cur.genOffset
              (cur.genOffset + len) (by omega) (by omega)]
        rw [← hguard2, ← hguard1] at htext ⊢
        rw [htxt, htext]
    · rw [if_neg hguard] at hm
      rcases List.mem_append.mp hm with h | h
      · exact hms m h
      · rw [List.mem_singleton.mp h]
        exact hnew

theorem goodMapping_mappingStep (input code : List Char)
    (st : List OffsetMapping × Option CurrentState) (seg : V3Segment)
    (h : ∀ m ∈ st.1, GoodMapping input code m) :
    ∀ m ∈ (mappingStep input code st seg).1, GoodMapping input code m := by
  obtain ⟨ms0, curOpt⟩ := st
  rcases curOpt with _ | cur
  · simpa only [mappingStep] using h
  · intro m hm
    simp only [mappingStep] at hm
    by_cases hlen : 0 < segmentLength input code cur seg.genOffset
    · rw [if_pos hlen] at hm
      exact goodMapping_pushMapping input code ms0 cur
        (segmentLength input code cur seg.genOffset) h
        (segmentLength_textEq input code cur seg.genOffset) m hm
    · rw [if_neg hlen] at hm
      exact h m hm

theorem goodMapping_foldl (input code : List Char) :
    ∀ (segs : List V3Segment) (st : List OffsetMapping × Option CurrentState),
      (∀ m ∈ st.1, GoodMapping input code m) →
      ∀ m ∈ (segs.foldl (mappingStep input code) st).1, GoodMapping input code m := by
  intro segs
  induction segs with
  | nil => intro st h; simpa using h
  | cons seg rest ih =>
    intro st h
    rw [List.foldl_cons]
    exact ih (mappingStep input code st seg) (goodMapping_mappingStep input code st seg h)

theorem goodMapping_buildMappings (input code : List Char) (segs : List V3Segment) :
    ∀ m ∈ buildMappings input code segs, GoodMapping input code m := by
  unfold buildMappings
  exact goodMapping_foldl input code segs ([], none) (by simp)

theorem pushMapping_end_le (ms : List OffsetMapping) (cur : CurrentState) (len : Nat)
    (hends : ∀ m ∈ ms, m.generatedRange.2 ≤ cur.genOffset) :
    ∀ m ∈ pushMapping ms cur len, m.generatedRange.2 ≤ cur.genOffset + len := by
  intro m hm
  unfold pushMapping at hm
  rcases hlast : ms.getLast? with _ | lastMapping
  · rw [hlast] at hm
    dsimp only at hm
    rcases List.mem_append.mp hm with h | h
    · exact le_trans (hends m h) (Nat.le_add_right _ _)
    · rw [List.mem_singleton.mp h]
  · rw [hlast] at hm
    dsimp only at hm
    split at hm
    · rcases List.mem_append.mp hm with h | h
      · exact le_trans (hends m (List.dropLast_subset ms h)) (Nat.le_add_right _ _)
      · rw [List.mem_singleton.mp h]
    · rcases List.mem_append.mp hm with h | h
      · exact le_trans (hends m h) (Nat.le_add_right _ _)
      · rw [List.mem_singleton.mp h]

theorem pushMapping_pairwise (ms : List OffsetMapping) (cur : CurrentState) (len : Nat)
    (hends : ∀ m ∈ ms, m.generatedRange.2 ≤ cur.genOffset)
    (hpw : List.Pairwise DisjointGen ms) :
    List.Pairwise DisjointGen (pushMapping ms cur len) := by
  unfold pushMapping
  rcases hlast : ms.getLast? with _ | lastMapping
  · dsimp only
    rw [List.pairwise_append]
    refine ⟨hpw, List.pairwise_singleton _ _, ?_⟩
    intro a ha b hb
    rw [List.mem_singleton.mp hb]
    exact hends a ha
  · dsimp only
    have hdecomp : ms.dropLast ++ [lastMapping] = ms :=
      List.dropLast_append_getLast? lastMapping (Option.mem_def.mpr hlast)
    split
    · rename_i hguard
      rw [List.pairwise_append]
      have hpwdrop : List.Pairwise DisjointGen ms.dropLast :=
        hpw.sublist (List.dropLast_sublist ms)
      refine ⟨hpwdrop, List.pairwise_singleton _ _, ?_⟩
      intro a ha b hb
      rw [List.mem_singleton.mp hb]
      have hpw' : List.Pairwise DisjointGen (ms.dropLast ++ [lastMapping]) := by
        rw [hdecomp]; exact hpw
      rw [List.pairwise_append] at hpw'
      exact hpw'.2.2 a ha lastMapping (List.mem_singleton.mpr rfl)
    · rw [List.pairwise_append]
      refine ⟨hpw, List.pairwise_singleton _ _, ?_⟩
      intro a ha b hb
      rw [List.mem_singleton.mp hb]
      exact hends a ha

theorem disjoint_foldl (input code : List Char) :
    ∀ (segs : List V3Segment) (st : List OffsetMapping × Option CurrentState) (lo : Nat),
      List.Chain' (fun a b => a.genOffset ≤ b.genOffset) segs →
      (∀ s ∈ segs.head?, lo ≤ s.genOffset) →
      (∀ m ∈ st.1, m.generatedRange.2 ≤ lo) →
      List.Pairwise DisjointGen st.1 →
      (∀ c, st.2 = some c → c.genOffset = lo) →
      List.Pairwise DisjointGen (segs.foldl (mappingStep input code) st).1 := by
  intro segs
  induction segs with
  | nil => intro st lo _ _ _ hpw _; simpa using hpw
  | cons seg rest ih =>
    intro st lo hchain hhead hends hpw hcur
    have hlo : lo ≤ seg.genOffset := hhead seg rfl
    rw [List.chain'_cons'] at hchain
    rw [List.foldl_cons]
    obtain ⟨ms0, curOpt⟩ := st
    have hseg_ends : ∀ m ∈ (mappingStep input code (ms0, curOpt) seg).1,
        m.generatedRange.2 ≤ seg.genOffset := by
      rcases curOpt with _ | cur
      · intro m hm
        simp only [mappingStep] at hm
        exact le_trans (hends m hm) hlo
      · intro m hm
        simp only [mappingStep] at hm
        have hcurlo : cur.genOffset = lo := hcur cur rfl
        by_cases hlen : 0 < segmentLength input code cur seg.genOffset
        · rw [if_pos hlen] at hm
          have := pushMapping_end_le ms0 cur (segmentLength input code cur seg.genOffset)
            (by intro m' hm'; rw [hcurlo]; exact hends m' hm') m hm
          have hsl := segmentLength_le input code cur seg.genOffset
          omega
        · rw [if_neg hlen] at hm
          exact le_trans (hends m hm) hlo
    have hseg_pw : List.Pairwise DisjointGen (mappingStep input code (ms0, curOpt) seg).1 := by
      rcases curOpt with _ | cur
      · simpa only [mappingStep] using hpw
      · simp only [mappingStep]
        have hcurlo : cur.genOffset = lo := hcur cur rfl
        by_cases hlen : 0 < segmentLength input code cur seg.genOffset
        · rw [if_pos hlen]
          exact pushMapping_pairwise ms0 cur _
            (by intro m' hm'; rw [hcurlo]; exact hends m' hm') hpw
        · rw [if_neg hlen]; exact hpw
    refine ih (mappingStep input code (ms0, curOpt) seg) seg.genOffset hchain.2 ?_
      hseg_ends hseg_pw ?_
    · intro s hs
      exact hchain.1 s hs
    · intro c hc
      simp only [mappingStep] at hc
      rcases hso : seg.sourceOffset with _ | so
      · rw [hso] at hc; simp at hc
      · rw [hso] at hc
        simp only [Option.map_some'] at hc
        cases hc
        rfl

theorem buildMappings_pairwise (input code : List Char) (segs : List V3Segment)
    (hsorted : List.Chain' (fun a b => a.genOffset ≤ b.genOffset) segs) :
    List.Pairwise DisjointGen (buildMappings input code segs) := by
  unfold buildMappings
  exact disjoint_foldl input code segs ([], none) 0 hsorted
    (by intro s _; exact Nat.zero_le _) (by simp) (by simp) (by simp)

/-- C2: every mapping entry that `getVirtualFileTSX` reconstructs from the
external compiler's delta-encoded table has a source range and a generated
range of equal length whose texts agree character for character, and whenever
the original and generated spans between two consecutive anchors diverge, the
recorded length is exactly the longest common prefix of the two spans (the
mismatched remainder stays unmapped). -/
theorem mapping_segments_equal_and_text_identical :
    ∀ (input code : List Char) (segs : List V3Segment),
      (∀ m ∈ buildMappings input code segs,
        m.sourceRange.2 - m.sourceRange.1 = m.generatedRange.2 - m.generatedRange.1 ∧
        jsSubstring input m.sourceRange.1 m.sourceRange.2 =
          jsSubstring code m.generatedRange.1 m.generatedRange.2) ∧
      (∀ (cur : CurrentState) (g : Nat),
        jsSubstring input cur.sourceOffset (cur.sourceOffset + (g - cur.genOffset)) ≠
          jsSubstring code cur.genOffset (cur.genOffset + (g - cur.genOffset)) →
        segmentLength input code cur g =
          lcpLength
            (jsSubstring input cur.sourceOffset (cur.sourceOffset + (g - cur.genOffset)))
            (jsSubstring code cur.genOffset (cur.genOffset + (g - cur.genOffset)))) := by
  intro input code segs
  constructor
  · intro m hm
    obtain ⟨_, _, hlen, htxt⟩ := goodMapping_buildMappings input code segs m hm
    exact ⟨hlen, htxt⟩
  · intro cur g hne
    simp only [segmentLength]
    rw [if_neg hne]
    apply matchScan_eq_lcpLength _ _ _ ?_ ?_ hne
    · calc (jsSubstring input cur.sourceOffset (cur.sourceOffset + (g - cur.genOffset))).length
          ≤ (cur.sourceOffset + (g - cur.genOffset)) - cur.sourceOffset :=
            jsSubstring_length_le _ _ _
        _ = g - cur.genOffset := by omega
    · calc (jsSubstring code cur.genOffset (cur.genOffset + (g - cur.genOffset))).length
          ≤ (cur.genOffset + (g - cur.genOffset)) - cur.genOffset :=
            jsSubstring_length_le _ _ _
        _ = g - cur.genOffset := by omega

/-- Witness for `mapping_segments_equal_and_text_identical` at a concrete
run: one anchored segment over the two-character document `ab` mapped onto
identical generated text. -/
theorem mapping_segments_equal_witness :
    ((⟨(0, 2), (0, 2), none⟩ : OffsetMapping) ∈
        buildMappings "ab".toList "ab".toList [⟨0, some 0⟩, ⟨2, none⟩]) ∧
      ((2 : Nat) - 0 = 2 - 0 ∧
        jsSubstring "ab".toList 0 2 = jsSubstring "ab".toList 0 2) :=
  ⟨by decide,
    (mapping_segments_equal_and_text_identical "ab".toList "ab".toList
          [⟨0, some 0⟩, ⟨2, none⟩]).1
      ⟨(0, 2), (0, 2), none⟩ (by decide)⟩

/-- C1: for every mapping segment produced by `getVirtualFileTSX` and every
original-document offset inside the segment's source range, translating it to
the generated document and back through the same segment returns the offset
exactly, and translating the round-tripped offset again is idempotent;
moreover, for the segments reconstructed from the delta table (which have
equal-length ranges) the translated offset lies inside the segment's
generated range, so linear interpolation picks exactly one generated
offset. -/
theorem mapping_roundtrip_identity :
    ∀ (input code : List Char) (segs : List V3Segment) (stmt : Option Nat),
      (∀ m ∈ getVirtualFileTSXMappings input code segs stmt, ∀ o : Nat,
        m.sourceRange.1 ≤ o → o ≤ m.sourceRange.2 →
          mapToOriginal m (mapToGenerated m o) = o ∧
          mapToGenerated m (mapToOriginal m (mapToGenerated m o)) = mapToGenerated m o) ∧
      (∀ m ∈ buildMappings input code segs, ∀ o : Nat,
        m.sourceRange.1 ≤ o → o ≤ m.sourceRange.2 →
          m.generatedRange.1 ≤ mapToGenerated m o ∧
            mapToGenerated m o ≤ m.generatedRange.2) := by
  intro input code segs stmt
  constructor
  · intro m _ o h1 _
    unfold mapToGenerated mapToOriginal
    constructor <;> omega
  · intro m hm o h1 h2
    obtain ⟨hs, hg, hlen, _⟩ := goodMapping_buildMappings input code segs m hm
    unfold mapToGenerated
    constructor <;> omega

/-- Witness for `mapping_roundtrip_identity`: offset 1 of the document `ab`
round-trips through the reconstructed segment. -/
theorem mapping_roundtrip_identity_witness :
    ((⟨(0, 2), (0, 2), some false⟩ : OffsetMapping) ∈
        getVirtualFileTSXMappings "ab".toList "ab".toList [⟨0, some 0⟩, ⟨2, none⟩] none) ∧
      (0 : Nat) ≤ 1 ∧ (1 : Nat) ≤ 2 ∧
      (mapToOriginal ⟨(0, 2), (0, 2), some false⟩
          (mapToGenerated ⟨(0, 2), (0, 2), some false⟩ 1) = 1 ∧
        mapToGenerated ⟨(0, 2), (0, 2), some false⟩
            (mapToOriginal ⟨(0, 2), (0, 2), some false⟩
              (mapToGenerated ⟨(0, 2), (0, 2), some false⟩ 1)) =
          mapToGenerated ⟨(0, 2), (0, 2), some false⟩ 1) :=
  ⟨by decide, by decide, by decide,
    (mapping_roundtrip_identity "ab".toList "ab".toList [⟨0, some 0⟩, ⟨2, none⟩] none).1
      ⟨(0, 2), (0, 2), some false⟩ (by decide) 1 (by decide) (by decide)⟩

/-- C9: after `getVirtualFileTSX` completes, every mapping entry carries
`formattingEdits = false`; no entry (in particular no synthesized one) ever
carries a true formatting flag. -/
theorem formatting_edits_all_false :
    ∀ (input code : List Char) (segs : List V3Segment) (stmt : Option Nat),
      ∀ m ∈ getVirtualFileTSXMappings input code segs stmt,
        m.formattingEdits = some false := by
  intro input code segs stmt m hm
  simp only [getVirtualFileTSXMappings] at hm
  rcases List.mem_map.mp hm with ⟨m', _, rfl⟩
  rfl

/-- Witness for `formatting_edits_all_false` on a concrete generation
result. -/
theorem formatting_edits_all_false_witness :
    ((⟨(0, 2), (0, 2), some false⟩ : OffsetMapping) ∈
        getVirtualFileTSXMappings "ab".toList "ab".toList [⟨0, some 0⟩, ⟨2, none⟩] (some 0)) ∧
      (⟨(0, 2), (0, 2), some false⟩ : OffsetMapping).formattingEdits = some false :=
  ⟨by decide,
    formatting_edits_all_false "ab".toList "ab".toList [⟨0, some 0⟩, ⟨2, none⟩] (some 0)
      ⟨(0, 2), (0, 2), some false⟩ (by decide)⟩

/-- C3: when the external compiler throws (modelled by `compilerResult =
none`), `astro2tsx` does not propagate the exception: it returns a value with
empty generated code and exactly one synthetic diagnostic of severity 1
(error) with code 1000 reporting an internal compiler error, and the rest of
the pipeline (mapping construction over the empty fallback) still yields a
result.  (`firstStatementStart = none` because the empty generated file
parses to zero statements.) -/
theorem compiler_crash_fallback :
    ∀ input : List Char,
      (astro2tsx input none none).code = [] ∧
      (astro2tsx input none none).diagnostics =
        [⟨1000, 1, 1, 1, input.length, internalCompilerErrorText⟩] ∧
      ((astro2tsx input none none).diagnostics.map (fun d => d.severity)) = [1] ∧
      (astro2tsx input none none).mappings = [] := by
  intro input
  exact ⟨rfl, rfl, rfl, rfl⟩

/-- C7 (amended): the mapping list returned by `getVirtualFileTSX` ends with
the whole-document entry `[0, input.length] ↦ [first statement start,
code.length]` exactly when the generated code parses to at least one
statement; when `ast.statements` is empty (as for the empty fallback code) no
such entry is appended. -/
theorem whole_document_entry_iff_first_statement :
    ∀ (input code : List Char) (segs : List V3Segment),
      (∀ s : Nat,
        (getVirtualFileTSXMappings input code segs (some s)).getLast? =
          some ⟨(0, input.length), (s, code.length), some false⟩) ∧
      getVirtualFileTSXMappings input code segs none =
        (buildMappings input code segs).map setFormattingEdits := by
  intro input code segs
  constructor
  · intro s
    simp only [getVirtualFileTSXMappings, List.map_append, List.map_cons, List.map_nil]
    rw [List.getLast?_concat]
    rfl
  · rfl

/-- C7 is refuted as stated: on the fallback generation (external compiler
threw, generated code empty, hence zero parsed statements) the mapping list
of `astro2tsx` on the one-character document `x` is empty — in particular it
does not end with an entry whose source range is `[0, 1]`. -/
theorem whole_document_entry_missing_on_fallback :
    (astro2tsx "x".toList none none).mappings = [] := by
  rfl

/-- C8 (amended): under the generated-offset monotonicity of the decoded
table, the entries `getVirtualFileTSX` reconstructs from the table are
pairwise non-overlapping and ordered in the generated direction; only the
appended whole-document entry may overlap them. -/
theorem generated_ranges_disjoint_before_final_entry :
    ∀ (input code : List Char) (segs : List V3Segment),
      List.Chain' (fun a b => a.genOffset ≤ b.genOffset) segs →
      List.Pairwise (fun a b => a.generatedRange.2 ≤ b.generatedRange.1)
        (buildMappings input code segs) := by
  intro input code segs h
  exact buildMappings_pairwise input code segs h

/-- Witness for `generated_ranges_disjoint_before_final_entry` on a concrete
sorted table. -/
theorem generated_ranges_disjoint_witness :
    List.Chain' (fun a b : V3Segment => a.genOffset ≤ b.genOffset)
        [⟨0, some 0⟩, ⟨2, none⟩] ∧
      List.Pairwise (fun a b : OffsetMapping => a.generatedRange.2 ≤ b.generatedRange.1)
        (buildMappings "ab".toList "ab".toList [⟨0, some 0⟩, ⟨2, none⟩]) :=
  ⟨List.chain'_pair.mpr (by decide),
    generated_ranges_disjoint_before_final_entry "ab".toList "ab".toList
      [⟨0, some 0⟩, ⟨2, none⟩] (List.chain'_pair.mpr (by decide))⟩

/-- C8 is refuted as stated: on the document `ab` whose generated code is the
identical text `ab` (whose first statement starts at offset 0), the full
mapping list contains the reconstructed entry and the whole-document entry,
and their generated ranges overlap — so the list as a whole is not pairwise
non-overlapping. -/
theorem final_entry_overlaps_generated :
    ¬ List.Pairwise (fun a b : OffsetMapping => a.generatedRange.2 ≤ b.generatedRange.1)
        (getVirtualFileTSXMappings "ab".toList "ab".toList
          [⟨0, some 0⟩, ⟨2, none⟩] (some 0)) := by
  decide

theorem findTripleDash_ge (cs : List Char) :
    ∀ i k, findTripleDash cs i = some k → i ≤ k := by
  induction cs with
  | nil => intro i k h; simp [findTripleDash] at h
  | cons c rest ih =>
    intro i k h
    rw [findTripleDash] at h
    split at h
    · cases h
      exact Nat.le_refl _
    · exact Nat.le_trans (by omega) (ih (i + 1) k h)

/-- C6: the frontmatter scan is total — its result is always one of the three
structural states — and whenever it reports a closed frontmatter the
recorded end of the close delimiter is strictly greater than the recorded
start of the open delimiter; concretely, `"---\n--- <div>Astro!</div>"`
scans as closed with the close delimiter ending at offset 7,
`"---\n<div>Astro!</div>"` scans as open at offset 0, and
`"<div>Astro!</div>"` scans as the no-frontmatter state. -/
theorem frontmatter_scan_total_and_ordered :
    (∀ text : List Char,
      (scanFrontmatter text = FrontmatterStatus.doesntExist ∨
        (∃ i, scanFrontmatter text = FrontmatterStatus.opened i) ∨
        ∃ i j, scanFrontmatter text = FrontmatterStatus.closed i j) ∧
      (∀ i j, scanFrontmatter text = FrontmatterStatus.closed i j → i < j)) ∧
    scanFrontmatter "---\n--- <div>Astro!</div>".toList = FrontmatterStatus.closed 0 7 ∧
    scanFrontmatter "---\n<div>Astro!</div>".toList = FrontmatterStatus.opened 0 ∧
    scanFrontmatter "<div>Astro!</div>".toList = FrontmatterStatus.doesntExist := by
  refine ⟨?_, by decide, by decide, by decide⟩
  intro text
  constructor
  · unfold scanFrontmatter
    rcases h1 : findTripleDash text 0 with _ | i
    · exact Or.inl rfl
    · dsimp only
      rcases h2 : findTripleDash (text.drop (i + 3)) (i + 3) with _ | k
      · exact Or.inr (Or.inl ⟨i, rfl⟩)
      · exact Or.inr (Or.inr ⟨i, k + 3, rfl⟩)
  · intro i j h
    unfold scanFrontmatter at h
    rcases h1 : findTripleDash text 0 with _ | i'
    · rw [h1] at h; cases h
    · rw [h1] at h
      dsimp only at h
      rcases h2 : findTripleDash (text.drop (i' + 3)) (i' + 3) with _ | k
      · rw [h2] at h; cases h
      · rw [h2] at h
        injection h with hi hj
        have hk := findTripleDash_ge (text.drop (i' + 3)) (i' + 3) k h2
        omega

/-- Witness for `frontmatter_scan_total_and_ordered`: the closed-scan order
hypothesis discharged at the concrete closed document. -/
theorem frontmatter_scan_witness : (0 : Nat) < 7 :=
  (frontmatter_scan_total_and_ordered.1 "---\n--- <div>Astro!</div>".toList).2 0 7
    frontmatter_scan_total_and_ordered.2.1

/-- C5: evaluating the source's `extractTags` at the two-style document finds
exactly one block — the top-level one, whose content spans [7, 23) — not the
two the repository's extraction test and the spec's depth-first-walk
description require: the deep walk is only attempted when no top-level style
matched (and then only over the first root node), so the style nested in the
`div` is missed. -/
theorem extractTags_misses_nested_style :
    (extractTags twoStyleDocument "style" twoStyleRoots).length = 1 ∧
    (extractTags twoStyleDocument "style" twoStyleRoots).map
        (fun t => (t.start, t.tagEnd)) = [(7, 23)] ∧
    twoStyleDocument.length = 72 := by
  refine ⟨by decide, by decide, by decide⟩

/-- C4: script isolation, modelled from the spec because `parseJS.ts` and the
external type checker are not under src/.  For two script blocks each
declaring the same single name: when neither carries the inline attribute,
each is checked as its own satellite module and no collision diagnostic
arises; when both carry the inline attribute, both contents land in the
shared primary scope and the collision surfaces as a diagnostic for that
name. -/
theorem script_isolation_diagnostics :
    ∀ (n : String) (b1 b2 : ScriptBlock),
      b1.declaredNames = [n] → b2.declaredNames = [n] →
      (b1.isInline = false → b2.isInline = false →
        generateCollisionDiagnostics [] [b1, b2] = []) ∧
      (b1.isInline = true → b2.isInline = true →
        n ∈ generateCollisionDiagnostics [] [b1, b2]) := by
  intro n b1 b2 h1 h2
  obtain ⟨i1, d1⟩ := b1
  obtain ⟨i2, d2⟩ := b2
  simp only [ScriptBlock.declaredNames] at h1 h2
  subst h1 h2
  constructor
  · rintro rfl rfl
    simp [generateCollisionDiagnostics, primaryScopeNames, satelliteModules,
      collisionDiagnostics]
  · rintro rfl rfl
    simp [generateCollisionDiagnostics, primaryScopeNames, satelliteModules,
      collisionDiagnostics, List.count_cons]

/-- Witness for `script_isolation_diagnostics` at the concrete name `hello`:
no diagnostics for two isolated blocks, a collision diagnostic for two inline
blocks. -/
theorem script_isolation_witness :
    (ScriptBlock.mk false ["hello"]).declaredNames = ["hello"] ∧
    generateCollisionDiagnostics [] [⟨false, ["hello"]⟩, ⟨false, ["hello"]⟩] = [] ∧
    "hello" ∈ generateCollisionDiagnostics [] [⟨true, ["hello"]⟩, ⟨true, ["hello"]⟩] :=
  ⟨rfl,
    (script_isolation_diagnostics "hello" ⟨false, ["hello"]⟩ ⟨false, ["hello"]⟩
        rfl rfl).1 rfl rfl,
    (script_isolation_diagnostics "hello" ⟨true, ["hello"]⟩ ⟨true, ["hello"]⟩
        rfl rfl).2 rfl rfl⟩

theorem getD_of_getQ (A : List Nat) (i x : Nat) (h : A.get? i = some x) :
    A.getD i 0 = x := by
  rw [List.getD_eq_getElem?_getD, ← List.get?_eq_getElem?, h]
  rfl

theorem pairwise_lt_getD (A : List Nat) (hpw : A.Pairwise (fun a b => a < b)) :
    ∀ i j, i < j → j < A.length → A.getD i 0 < A.getD j 0 := by
  intro i j hij hj
  have hi : i < A.length := lt_trans hij hj
  have h := List.pairwise_iff_get.mp hpw ⟨i, hi⟩ ⟨j, hj⟩ hij
  rw [List.getD_eq_getElem?_getD, List.getElem?_eq_getElem hi,
      List.getD_eq_getElem?_getD, List.getElem?_eq_getElem hj]
  exact h

theorem posSearch_exit (A : List Nat) (offset low high1 : Nat)
    (hnlt : ¬ low < high1)
    (h0len : 0 < A.length) (h0 : A.getD 0 0 ≤ offset)
    (hle : low ≤ high1)
    (hlow : low = 0 ∨ (0 < low ∧ low - 1 < A.length ∧ A.getD (low - 1) 0 ≤ offset))
    (hhigh : ∀ j, high1 ≤ j → j < A.length → offset < A.getD j 0) :
    ∃ l, posSearch A offset low high1 = ⟨l, offset - A.getD l 0⟩ ∧
      l < A.length ∧ A.getD l 0 ≤ offset ∧
      ∀ j, l < j → j < A.length → offset < A.getD j 0 := by
  have heq : low = high1 := by omega
  rcases hlow with h | ⟨hpos, hlen, hle'⟩
  · exfalso
    have := hhigh 0 (by omega) h0len
    omega
  · refine ⟨low - 1, ?_, hlen, hle', ?_⟩
    · rw [posSearch, if_neg hnlt]
    · intro j hj _
      exact hhigh j (by omega) (by assumption)

theorem posSearch_found (A : List Nat) (offset : Nat)
    (hpw : A.Pairwise (fun a b => a < b))
    (h0len : 0 < A.length) (h0 : A.getD 0 0 ≤ offset) :
    ∀ (d low high1 : Nat), high1 - low ≤ d → low ≤ high1 →
      (low = 0 ∨ (0 < low ∧ low - 1 < A.length ∧ A.getD (low - 1) 0 ≤ offset)) →
      (∀ j, high1 ≤ j → j < A.length → offset < A.getD j 0) →
      ∃ l, posSearch A offset low high1 = ⟨l, offset - A.getD l 0⟩ ∧
        l < A.length ∧ A.getD l 0 ≤ offset ∧
        ∀ j, l < j → j < A.length → offset < A.getD j 0 := by
  intro d
  induction d with
  | zero =>
    intro low high1 hd hle hlow hhigh
    exact posSearch_exit A offset low high1 (by omega) h0len h0 hle hlow hhigh
  | succ d ih =>
    intro low high1 hd hle hlow hhigh
    by_cases hlt : low < high1
    · have hmidlb : low ≤ (low + high1 - 1) / 2 := by omega
      have hmidub : (low + high1 - 1) / 2 < high1 := by omega
      rw [posSearch]
      simp only
      rw [if_pos hlt]
      rcases hm : A.get? ((low + high1 - 1) / 2) with _ | v
      · have hlen := List.get?_eq_none.mp hm
        refine ?_
        have := ih low ((low + high1 - 1) / 2) (by omega) (by omega) hlow ?_
        · obtain ⟨l, h1, h2, h3, h4⟩ := this
          exact ⟨l, h1, h2, h3, h4⟩
        · intro j hj1 hj2
          omega
      · have hvlt : (low + high1 - 1) / 2 < A.length := by
          obtain ⟨hh, _⟩ := List.get?_eq_some.mp hm
          exact hh
        have hgd : A.getD ((low + high1 - 1) / 2) 0 = v := getD_of_getQ A _ v hm
        dsimp only
        by_cases hv : v = offset
        · rw [if_pos hv]
          refine ⟨(low + high1 - 1) / 2, ?_, hvlt, by omega, ?_⟩
          · rw [hgd, hv, Nat.sub_self]
          · intro j hj1 hj2
            have := pairwise_lt_getD A hpw ((low + high1 - 1) / 2) j hj1 hj2
            omega
        · rw [if_neg hv]
          by_cases hgt : offset > v
          · rw [if_pos hgt]
            refine ih ((low + high1 - 1) / 2 + 1) high1 (by omega) (by omega)
              (Or.inr ⟨by omega, ?_, ?_⟩) hhigh
            · simpa using hvlt
            · have h' : (low + high1 - 1) / 2 + 1 - 1 = (low + high1 - 1) / 2 := by omega
              rw [h', hgd]
              omega
          · rw [if_neg hgt]
            refine ih low ((low + high1 - 1) / 2) (by omega) (by omega) hlow ?_
            intro j hj1 hj2
            rcases Nat.eq_or_lt_of_le hj1 with heq | hlt'
            · rw [← heq, hgd]
              omega
            · have := pairwise_lt_getD A hpw ((low + high1 - 1) / 2) j hlt' hj2
              omega
    · exact posSearch_exit A offset low high1 hlt h0len h0 hle hlow hhigh

theorem mem_if_singleton (x i : Nat) (b : Bool)
    (h : x ∈ (if b then [i] else ([] : List Nat))) : x = i := by
  cases b
  · simp at h
  · simpa using h

theorem lineOffsetsAux_mem_bounds :
    ∀ (cs : List Char) (i : Nat) (b : Bool), ∀ x ∈ (lineOffsetsAux cs i b).1,
      i ≤ x ∧ x < i + cs.length := by
  intro cs i b
  induction cs, i, b using lineOffsetsAux.induct with
  | case1 i b => intro x hx; simp [lineOffsetsAux] at hx
  | case2 rest i b ih =>
    intro x hx
    simp only [lineOffsetsAux] at hx
    simp only [List.length_cons]
    rcases List.mem_append.mp hx with h | h
    · have := mem_if_singleton x i b h
      omega
    · have := ih x h
      omega
  | case3 c rest i b hne ih =>
    intro x hx
    simp only [lineOffsetsAux] at hx
    simp only [List.length_cons]
    rcases List.mem_append.mp hx with h | h
    · have := mem_if_singleton x i b h
      omega
    · have := ih x h
      omega

theorem lineOffsetsAux_chain :
    ∀ (cs : List Char) (i : Nat) (b : Bool),
      List.Chain' (fun a b => a < b) (lineOffsetsAux cs i b).1 := by
  intro cs i b
  induction cs, i, b using lineOffsetsAux.induct with
  | case1 i b => simp [lineOffsetsAux]
  | case2 rest i b ih =>
    simp only [lineOffsetsAux]
    cases b
    · simpa using ih
    · simp only [if_true, List.singleton_append]
      rw [List.chain'_cons']
      refine ⟨?_, ih⟩
      intro y hy
      have hmem := List.mem_of_mem_head? hy
      have := lineOffsetsAux_mem_bounds rest (i + 2) true y hmem
      omega
  | case3 c rest i b hne ih =>
    simp only [lineOffsetsAux]
    cases b
    · simpa using ih
    · simp only [if_true, List.singleton_append]
      rw [List.chain'_cons']
      refine ⟨?_, ih⟩
      intro y hy
      have hmem := List.mem_of_mem_head? hy
      have := lineOffsetsAux_mem_bounds rest (i + 1) _ y hmem
      omega

theorem lineOffsetsAux_head :
    ∀ (cs : List Char) (i : Nat) (b : Bool), b = true → cs ≠ [] →
      ∃ rest, (lineOffsetsAux cs i b).1 = i :: rest := by
  intro cs i b
  induction cs, i, b using lineOffsetsAux.induct with
  | case1 i b => intro _ h; exact absurd rfl h
  | case2 rest i b ih =>
    intro hb _
    subst hb
    exact ⟨(lineOffsetsAux rest (i + 2) true).1, by simp [lineOffsetsAux]⟩
  | case3 c rest i b hne ih =>
    intro hb _
    subst hb
    exact ⟨(lineOffsetsAux rest (i + 1) (c == '\x0d' || c == '\n')).1,
      by simp [lineOffsetsAux]⟩

theorem mem_of_getLastQ (l : List Nat) (x : Nat) (h : l.getLast? = some x) : x ∈ l := by
  rw [← List.dropLast_append_getLast? x (Option.mem_def.mpr h)]
  exact List.mem_append_right _ (List.mem_singleton.mpr rfl)

theorem getLineOffsets_mem_le (text : List Char) :
    ∀ x ∈ getLineOffsets text, x ≤ text.length := by
  intro x hx
  simp only [getLineOffsets] at hx
  split at hx
  · rcases List.mem_append.mp hx with h | h
    · have := lineOffsetsAux_mem_bounds text 0 true x h
      omega
    · have := List.mem_singleton.mp h
      omega
  · have := lineOffsetsAux_mem_bounds text 0 true x hx
    omega

theorem getLineOffsets_chain (text : List Char) :
    List.Chain' (fun a b => a < b) (getLineOffsets text) := by
  simp only [getLineOffsets]
  split
  · rw [List.chain'_append]
    refine ⟨lineOffsetsAux_chain text 0 true, by simp, ?_⟩
    intro x hx y hy
    have hx' : x ∈ (lineOffsetsAux text 0 true).1 :=
      mem_of_getLastQ _ x (Option.mem_def.mp hx)
    have hy' : text.length = y := by simpa using hy
    have := lineOffsetsAux_mem_bounds text 0 true x hx'
    omega
  · exact lineOffsetsAux_chain text 0 true

theorem getLineOffsets_head (text : List Char) (h : text ≠ []) :
    ∃ rest, getLineOffsets text = 0 :: rest := by
  obtain ⟨rest, hrest⟩ := lineOffsetsAux_head text 0 true rfl h
  simp only [getLineOffsets]
  split
  · exact ⟨rest ++ [text.length], by rw [hrest]; rfl⟩
  · exact ⟨rest, hrest⟩

theorem getLineOffsets_nil : getLineOffsets [] = [] := by decide

theorem getD_mem_of_lt (A : List Nat) (n : Nat) (h : n < A.length) :
    A.getD n 0 ∈ A := by
  rw [List.getD_eq_getElem?_getD, List.getElem?_eq_getElem h]
  simpa using List.getElem_mem h

theorem offsetAt_le (text : List Char) (pos : TextPosition) :
    offsetAtText pos text ≤ text.length := by
  simp only [offsetAtText, offsetAt]
  split
  · exact Nat.le_refl _
  · rename_i hline
    have hlinelt : pos.line < (getLineOffsets text).length := by omega
    have hmem := getD_mem_of_lt (getLineOffsets text) pos.line hlinelt
    have hlo := getLineOffsets_mem_le text _ hmem
    by_cases hnext : pos.line + 1 < (getLineOffsets text).length
    · rw [if_pos hnext]
      have hmem' := getD_mem_of_lt (getLineOffsets text) (pos.line + 1) hnext
      have hno := getLineOffsets_mem_le text _ hmem'
      simp only [clamp]
      omega
    · rw [if_neg hnext]
      simp only [clamp]
      omega

theorem positionAt_offsetAt_min (text : List Char) (o : Nat) :
    offsetAtText (positionAtText o text) text = min o text.length := by
  by_cases htext : text = []
  · subst htext
    simp [positionAtText, positionAt, offsetAtText, offsetAt, getLineOffsets_nil, clamp]
  · obtain ⟨rest, hA⟩ := getLineOffsets_head text htext
    have hlen : 0 < (getLineOffsets text).length := by rw [hA]; simp
    have h0 : (getLineOffsets text).getD 0 0 = 0 := by rw [hA]; rfl
    have hpw : (getLineOffsets text).Pairwise (fun a b => a < b) :=
      List.chain'_iff_pairwise.mp (getLineOffsets_chain text)
    have hsearch := posSearch_found (getLineOffsets text) (clamp o 0 text.length) hpw hlen
      (by rw [h0]; omega) ((getLineOffsets text).length + 1) 0
      ((getLineOffsets text).length + 1) (by omega) (by omega) (Or.inl rfl)
      (by intro j hj1 hj2; omega)
    obtain ⟨l, heq, hllen, hle', hgt⟩ := hsearch
    have hpos : positionAtText o text =
        ⟨l, clamp o 0 text.length - (getLineOffsets text).getD l 0⟩ := by
      simp only [positionAtText, positionAt]
      rw [if_neg (by omega)]
      exact heq
    rw [hpos]
    simp only [offsetAtText, offsetAt]
    rw [if_neg (by show ¬ l ≥ (getLineOffsets text).length; omega)]
    have hmem := getD_mem_of_lt (getLineOffsets text) l hllen
    have hlol := getLineOffsets_mem_le text _ hmem
    by_cases hl1 : l + 1 < (getLineOffsets text).length
    · rw [if_pos hl1]
      have hnextgt := hgt (l + 1) (by omega) hl1
      simp only [clamp] at hle' hnextgt ⊢
      omega
    · rw [if_neg hl1]
      simp only [clamp] at hle' ⊢
      omega

/-- C10: over any text, converting an offset to a line/character position and
back is the identity for every offset within the text (`offsetAt (positionAt
o) = o` for `o ≤ length`); `positionAt` clamps out-of-range offsets into
`[0, length]` before converting (so the round-trip of an arbitrary offset
lands on `min o length`); and `offsetAt` clamps any position — however far
its line or character exceeds the text — to a valid offset, never exceeding
the text length.  Both functions are total Lean functions, so neither can
throw. -/
theorem positionAt_offsetAt_roundtrip :
    ∀ (text : List Char) (pos : TextPosition) (o : Nat),
      o ≤ text.length →
      (offsetAtText (positionAtText o text) text = o ∧
        (∀ o' : Nat, offsetAtText (positionAtText o' text) text = min o' text.length) ∧
        offsetAtText pos text ≤ text.length) := by
  intro text pos o ho
  refine ⟨?_, fun o' => positionAt_offsetAt_min text o', offsetAt_le text pos⟩
  rw [positionAt_offsetAt_min text o]
  omega

/-- Witness for `positionAt_offsetAt_roundtrip`: the two-line text `ab\ncd`
with the in-range offset 4 and the wildly out-of-range position (99, 99). -/
theorem positionAt_offsetAt_roundtrip_witness :
    (4 : Nat) ≤ "ab\ncd".toList.length ∧
      (offsetAtText (positionAtText 4 "ab\ncd".toList) "ab\ncd".toList = 4 ∧
        (∀ o' : Nat,
          offsetAtText (positionAtText o' "ab\ncd".toList) "ab\ncd".toList =
            min o' "ab\ncd".toList.length) ∧
        offsetAtText ⟨99, 99⟩ "ab\ncd".toList ≤ "ab\ncd".toList.length) :=
  ⟨by decide,
    positionAt_offsetAt_roundtrip "ab\ncd".toList ⟨99, 99⟩ 4 (by decide)⟩
